import Mathlib

/-!
Verification of the QML-winter-school notebook pipeline
(`QML/Kernel4HEP`): data loading, standardization, subsampling,
mutual-information feature selection, quantum-kernel construction and the
train/test split.  Numeric data is modelled exactly (rationals for the
generic plumbing, reals for the standardization step); library calls that
are external to the repository (pandas `sample`, sklearn estimators,
qiskit circuits) are modelled from the specification where noted.
-/

namespace Kernel4HEP

/-- A two-dimensional numeric array in the style of `numpy`: a list of rows
together with a column count that every row matches (the shape `(n, F)`). -/
structure NpArray (α : Type) where
  rows : List (List α)
  ncols : Nat
  wf : ∀ r ∈ rows, r.length = ncols

/-- Errors surfaced by the loading / preprocessing stages, as named by the
specification's error-handling section. -/
inductive LoadError where
  | invalidInputShape
  deriving DecidableEq

/-- Errors surfaced by the subsampling stage. -/
inductive SampleError where
  | insufficientSamples
  deriving DecidableEq

/-- Vertical concatenation of the background and signal arrays, as in
`X = np.vstack((bkg, sig))`.  Modelled from the spec: the explicit
shape-validation check (`InvalidInputShape` on mismatched feature counts) is
required by the specification even though the notebook relies on the library
call to reject mismatched widths. -/
def vstack {α : Type} (bkg sig : NpArray α) : Except LoadError (NpArray α) :=
  if h : bkg.ncols = sig.ncols then
    .ok ⟨bkg.rows ++ sig.rows, bkg.ncols, by
      intro r hr
      rcases List.mem_append.mp hr with hb | hs
      · exact bkg.wf r hb
      · exact h ▸ sig.wf r hs⟩
  else
    .error .invalidInputShape

/-- The label vector `y = np.hstack((np.zeros(bkg.shape[0]), np.ones(sig.shape[0])))`:
`n_bkg` zeros (Background) followed by `n_sig` ones (Signal). -/
def hstackLabels (nbkg nsig : Nat) : List ℚ :=
  List.replicate nbkg 0 ++ List.replicate nsig 1

/-- The data-loader stage: combine the two arrays into the feature matrix `X`
and the label vector `y`. -/
def loadData {α : Type} (bkg sig : NpArray α) :
    Except LoadError (NpArray α × List ℚ) := do
  let X ← vstack bkg sig
  pure (X, hstackLabels bkg.rows.length sig.rows.length)

/-- Arithmetic mean of a list of reals (the column statistic used by
`StandardScaler`). -/
noncomputable def mean (l : List ℝ) : ℝ := l.sum / l.length

/-- Population variance of a list of reals (`StandardScaler` uses the biased
variance, `ddof = 0`). -/
noncomputable def popVar (l : List ℝ) : ℝ :=
  ((l.map fun x => (x - mean l) ^ 2).sum) / l.length

/-- The per-column scale used by `StandardScaler`: the standard deviation,
with zeros replaced by `1` (sklearn's `_handle_zeros_in_scale`). -/
noncomputable def scaleOf (l : List ℝ) : ℝ :=
  if Real.sqrt (popVar l) = 0 then 1 else Real.sqrt (popVar l)

/-- Column `j` of a list of data rows (out-of-range entries default to `0`;
for well-formed arrays they are never taken). -/
def column (rows : List (List ℝ)) (j : Nat) : List ℝ :=
  rows.map fun r => r.getD j 0

/-- The standardization step `data[feature_names] = scaler.fit_transform(...)`:
every entry is replaced by `(x - mean of its column) / scale of its column`,
with the statistics computed over the full combined dataset. -/
noncomputable def fitTransform (a : NpArray ℝ) : NpArray ℝ :=
  ⟨a.rows.map fun r => (List.range a.ncols).map
      fun j => (r.getD j 0 - mean (column a.rows j)) / scaleOf (column a.rows j),
   a.ncols, by
    intro r hr
    rcases List.mem_map.mp hr with ⟨s, _, rfl⟩
    simp⟩

/-- The subsampling step `data = data.sample(n=max_samples, random_state=42)`.
Modelled from the spec: pandas' `sample` is library code not in the
repository; per the spec it subsamples to a fixed count with a deterministic
seed, failing when the requested count exceeds the population.  The
seed-determined row order is modelled by an explicit index list `perm`
(a permutation of the row indices); the stage takes the rows at the first
`n` indices, and errors with `InsufficientSamples` when `n` exceeds the
number of rows. -/
def sample {α : Type} (perm : List Nat) (n : Nat) (rows : List α) :
    Except SampleError (List α) :=
  if n ≤ rows.length then
    .ok ((perm.take n).filterMap fun i => rows[i]?)
  else
    .error .insufficientSamples

/-- A feature paired with its mutual-information score: one row of the
notebook's `mi_scores_df` (the `Feature` name is modelled by the feature's
original index). -/
structure ScoredFeature where
  idx : Nat
  score : ℚ
  deriving DecidableEq

/-- The order in which `mi_scores_df.sort_values(by='MI Score', ascending=False)`
arranges the rows: descending score, with ties broken by original feature
order (the spec's stable sort). -/
def miOrder (a b : ScoredFeature) : Prop :=
  b.score < a.score ∨ (a.score = b.score ∧ a.idx ≤ b.idx)

instance : DecidableRel miOrder := fun _ _ =>
  inferInstanceAs (Decidable (_ ∨ _))

instance : IsTotal ScoredFeature miOrder := by
  constructor
  intro a b
  rcases lt_trichotomy a.score b.score with hlt | heq | hgt
  · exact Or.inr (Or.inl hlt)
  · rcases Nat.le_total a.idx b.idx with hle | hle
    · exact Or.inl (Or.inr ⟨heq, hle⟩)
    · exact Or.inr (Or.inr ⟨heq.symm, hle⟩)
  · exact Or.inl (Or.inl hgt)

instance : IsTrans ScoredFeature miOrder := by
  constructor
  intro a b c hab hbc
  rcases hab with hab | ⟨hab, hab'⟩ <;> rcases hbc with hbc | ⟨hbc, hbc'⟩
  · exact Or.inl (hbc.trans hab)
  · exact Or.inl (hbc ▸ hab)
  · exact Or.inl (hab ▸ hbc)
  · exact Or.inr ⟨hab.trans hbc, hab'.trans hbc'⟩

/-- The rows of `mi_scores_df`: each feature index with its score. -/
def scoredFeatures (scores : List ℚ) : List ScoredFeature :=
  (List.range scores.length).map fun i => ⟨i, scores.getD i 0⟩

/-- `mi_scores_df.sort_values(by='MI Score', ascending=False)`.  Modelled
from the spec: pandas' sorting routine is library code not in the
repository; per the spec it sorts the scores descending with ties broken by
original feature order (stable sort), realized here as an insertion sort
under `miOrder`. -/
def sortValues (scores : List ℚ) : List ScoredFeature :=
  List.insertionSort miOrder (scoredFeatures scores)

/-- `top_features = mi_scores_df['Feature'].head(2).values`: the first two
feature identifiers of the sorted ranking. -/
def topFeatures (scores : List ℚ) : List Nat :=
  ((sortValues scores).map ScoredFeature.idx).take 2

/-- The feature-selection stage.  The mutual-information estimator
`mutual_info_classif` is external library code; modelled from the spec as a
deterministic function `mi` of the feature matrix, the binary labels and the
seed, whose output scores are then sorted and cut to the top 2. -/
def featureSelection (mi : List (List ℚ) → List ℚ → Nat → List ℚ)
    (X : List (List ℚ)) (y : List ℚ) (seed : Nat) : List Nat :=
  topFeatures (mi X y seed)

/-- Entanglement topologies offered by the circuit library. -/
inductive Entanglement where
  | linear
  | full
  deriving DecidableEq

/-- The configuration of a qiskit `ZZFeatureMap` circuit.  Modelled from the
spec: the circuit internals are library code; the notebook fixes the feature
dimension, the repetition count and the entanglement topology, and the map
carries one input parameter per feature. -/
structure FeatureMapConfig where
  featureDimension : Nat
  reps : Nat
  entanglement : Entanglement
  deriving DecidableEq

/-- Constructor mirroring `ZZFeatureMap(feature_dimension=..., reps=...,
entanglement=...)`. -/
def ZZFeatureMap (featureDimension reps : Nat) (ent : Entanglement) :
    FeatureMapConfig :=
  ⟨featureDimension, reps, ent⟩

/-- Modelled from the spec: a `ZZFeatureMap` exposes one input parameter per
feature. -/
def numInputParams (c : FeatureMapConfig) : Nat := c.featureDimension

/-- The notebook's kernel-builder call
`ZZFeatureMap(feature_dimension=X_selected.shape[1], reps=2, entanglement="linear")`,
where `X_selected = data[top_features].values` has one column per selected
feature. -/
def buildFeatureMap (scores : List ℚ) : FeatureMapConfig :=
  ZZFeatureMap (topFeatures scores).length 2 .linear

/-- The test-set size sklearn's `train_test_split` derives from the
fractional `test_size = 0.2` on `n` samples: the ceiling of `n / 5`. -/
def nTest (n : Nat) : Nat := (Int.ceil ((n : ℚ) / 5)).toNat

/-- `train_test_split(..., test_size=0.2, random_state=42)` applied to one
column of data.  Modelled from the spec: the library's seed-determined
shuffle is an explicit permutation `perm` of the row indices `0..n-1`; the
test set takes the first `nTest n` shuffled samples and the train set the
remaining ones.  The same `perm` and `n` are used for the feature matrix
and the label vector, which keeps each sample's features and label
paired. -/
def trainTestSplit {α : Type} (perm : List Nat) (n : Nat) (xs : List α) :
    List α × List α :=
  let shuffled := perm.filterMap fun i => xs[i]?
  (shuffled.drop (nTest n), shuffled.take (nTest n))

/-- Modelled from the spec: the `FidelityQuantumKernel`'s similarity.  The
circuit state prepared with a parameter vector `x` is a unit vector `phi x`
of a complex inner-product space, and `similarity(x, y)` is the squared
overlap amplitude between the states prepared with `x` and `y` — the
quantity the library's `ComputeUncompute` fidelity estimates. -/
noncomputable def fidelityKernel {P E : Type} [NormedAddCommGroup E]
    [InnerProductSpace ℂ E] (phi : P → E) (x y : P) : ℝ :=
  ‖(inner (phi x) (phi y) : ℂ)‖ ^ 2

/-- `quantum_kernel.evaluate(x_vec, y_vec)`: the matrix of pairwise kernel
values between two lists of parameter vectors (for
`quantum_kernel.evaluate(x_vec=train_features)` the two lists coincide). -/
noncomputable def evaluate {P E : Type} [NormedAddCommGroup E]
    [InnerProductSpace ℂ E] (phi : P → E) (xs ys : List P) : List (List ℝ) :=
  xs.map fun x => ys.map fun y => fidelityKernel phi x y

/-- Entry `(i, j)` of a kernel matrix, defaulting to `0` out of range. -/
def entry (M : List (List ℝ)) (i j : Nat) : ℝ := (M.getD i []).getD j 0

/-- A concrete background array with a single feature, rows `0` and `1`. -/
def exBkg : NpArray ℝ := ⟨[[0], [1]], 1, by simp⟩

/-- A concrete signal array with a single feature, row `2`. -/
def exSig : NpArray ℝ := ⟨[[2]], 1, by simp⟩

/-- The combined array the loader produces from `exBkg` and `exSig`. -/
def exAll : NpArray ℝ := ⟨[[0], [1], [2]], 1, by simp⟩

/-- A concrete constant-valued array, used to instantiate the theorems at
the shapes named by the specification's scenarios. -/
def constArray (nrows ncols : Nat) (v : ℝ) : NpArray ℝ :=
  ⟨List.replicate nrows (List.replicate ncols v), ncols, by
    intro r hr
    rw [List.eq_of_mem_replicate hr]
    simp⟩

end Kernel4HEP

namespace Kernel4HEP

/-- Taking rows at a list of in-range indices yields one row per index. -/
theorem filterMap_index_length {α : Type} (rows : List α) :
    ∀ l : List Nat, (∀ i ∈ l, i < rows.length) →
      (l.filterMap fun i => rows[i]?).length = l.length := by
  intro l
  induction l with
  | nil => simp
  | cons a t ih =>
    intro h
    have ha : a < rows.length := h a (by simp)
    rw [List.filterMap_cons, List.getElem?_eq_getElem ha]
    simp only [List.length_cons]
    rw [ih fun i hi => h i (by simp [hi])]

/-- Every row produced by index selection is a row of the input. -/
theorem mem_of_filterMap_index {α : Type} (rows : List α) (l : List Nat)
    {x : α} (hx : x ∈ l.filterMap fun i => rows[i]?) : x ∈ rows := by
  rcases List.mem_filterMap.mp hx with ⟨i, _, hget⟩
  exact List.getElem?_mem hget

/-- Standardization does not change the number of rows. -/
theorem fitTransform_rows_length (a : NpArray ℝ) :
    (fitTransform a).rows.length = a.rows.length := by
  simp [fitTransform]

/-- Standardization does not change the column count. -/
theorem fitTransform_ncols (a : NpArray ℝ) :
    (fitTransform a).ncols = a.ncols := rfl

/-- Loading succeeds on matching column counts, producing the stacked rows
and the zeros-then-ones label vector. -/
theorem loadData_eq_ok {α : Type} (bkg sig : NpArray α) (h : bkg.ncols = sig.ncols) :
    ∃ X : NpArray α,
      loadData bkg sig = .ok (X, hstackLabels bkg.rows.length sig.rows.length) ∧
      X.rows = bkg.rows ++ sig.rows ∧ X.ncols = bkg.ncols := by
  refine ⟨⟨bkg.rows ++ sig.rows, bkg.ncols, ?_⟩, ?_, rfl, rfl⟩
  · intro r hr
    rcases List.mem_append.mp hr with hb | hs
    · exact bkg.wf r hb
    · exact h ▸ sig.wf r hs
  · simp [loadData, vstack, h]

/-- Subsampling with a valid permutation and an admissible count succeeds,
returns exactly `n` rows, and every returned row is a row of the input. -/
theorem sample_eq_ok {α : Type} (perm : List Nat) (n : Nat) (rows : List α)
    (hperm : perm.Perm (List.range rows.length)) (hle : n ≤ rows.length) :
    ∃ out, sample perm n rows = .ok out ∧ out.length = n ∧
      ∀ x ∈ out, x ∈ rows := by
  refine ⟨(perm.take n).filterMap fun i => rows[i]?,
    by rw [sample, if_pos hle], ?_, fun x hx => mem_of_filterMap_index rows _ hx⟩
  rw [filterMap_index_length]
  · have hlen : perm.length = rows.length := by simpa using hperm.length_eq
    simp [List.length_take, hlen]
    omega
  · intro i hi
    have hmem : i ∈ perm := List.mem_of_mem_take hi
    simpa using hperm.mem_iff.mp hmem

/-- C1: for every pair of input arrays `bkg : (n_bkg, F)` and `sig : (n_sig, F)`
with matching feature counts, the combined feature matrix has exactly
`n_bkg + n_sig` rows — the background rows first, then the signal rows — and
the label vector has exactly `n_sig` entries equal to `1` and `n_bkg` entries
equal to `0`, aligned with the corresponding rows (label `0` at every
background row index, label `1` at every signal row index). -/
theorem C1_loader_shape_and_labels {α : Type} (bkg sig : NpArray α)
    (h : bkg.ncols = sig.ncols) :
    ∃ X : NpArray α, loadData bkg sig = .ok (X, hstackLabels bkg.rows.length sig.rows.length) ∧
      X.rows.length = bkg.rows.length + sig.rows.length ∧
      X.rows = bkg.rows ++ sig.rows ∧
      (hstackLabels bkg.rows.length sig.rows.length).length =
        bkg.rows.length + sig.rows.length ∧
      (hstackLabels bkg.rows.length sig.rows.length).count 1 = sig.rows.length ∧
      (hstackLabels bkg.rows.length sig.rows.length).count 0 = bkg.rows.length ∧
      (∀ i < bkg.rows.length,
        (hstackLabels bkg.rows.length sig.rows.length).getD i 2 = 0 ∧
        X.rows.getD i [] = bkg.rows.getD i []) ∧
      (∀ i < sig.rows.length,
        (hstackLabels bkg.rows.length sig.rows.length).getD (bkg.rows.length + i) 2 = 1 ∧
        X.rows.getD (bkg.rows.length + i) [] = sig.rows.getD i []) := by
  refine ⟨⟨bkg.rows ++ sig.rows, bkg.ncols, ?_⟩, ?_, ?_, rfl, ?_, ?_, ?_, ?_, ?_⟩
  · intro r hr
    rcases List.mem_append.mp hr with hb | hs
    · exact bkg.wf r hb
    · exact h ▸ sig.wf r hs
  · simp [loadData, vstack, h]
  · simp
  · simp [hstackLabels]
  · simp [hstackLabels, List.count_append, List.count_replicate]
  · simp [hstackLabels, List.count_append, List.count_replicate]
  · intro i hi
    constructor
    · rw [hstackLabels, List.getD_append _ _ _ _ (by simpa using hi)]
      simp [List.getD, List.getElem?_replicate, hi]
    · exact List.getD_append _ _ _ _ hi
  · intro i hi
    constructor
    · rw [hstackLabels,
        List.getD_append_right _ _ _ _ (by simp)]
      simp [List.getD, List.getElem?_replicate, hi]
    · rw [List.getD_append_right _ _ _ _ (by omega)]
      congr 1
      omega

/-- Witness for C1 at a concrete pair of arrays. -/
theorem C1_loader_shape_and_labels_witness :
    (NpArray.mk [[(1 : ℚ), 2], [3, 4]] 2 (by simp)).ncols =
      (NpArray.mk [[(5 : ℚ), 6]] 2 (by simp)).ncols ∧
    ∃ X : NpArray ℚ,
      loadData (NpArray.mk [[(1 : ℚ), 2], [3, 4]] 2 (by simp))
          (NpArray.mk [[(5 : ℚ), 6]] 2 (by simp)) =
        .ok (X, hstackLabels 2 1) ∧
      X.rows.length = 2 + 1 ∧
      X.rows = [[(1 : ℚ), 2], [3, 4]] ++ [[5, 6]] ∧
      (hstackLabels 2 1).length = 2 + 1 ∧
      (hstackLabels 2 1).count 1 = 1 ∧
      (hstackLabels 2 1).count 0 = 2 ∧
      (∀ i < 2, (hstackLabels 2 1).getD i 2 = 0 ∧
        X.rows.getD i [] = [[(1 : ℚ), 2], [3, 4]].getD i []) ∧
      (∀ i < 1, (hstackLabels 2 1).getD (2 + i) 2 = 1 ∧
        X.rows.getD (2 + i) [] = [[(5 : ℚ), 6]].getD i []) :=
  ⟨rfl, C1_loader_shape_and_labels _ _ rfl⟩

/-- C6: the data loader fails with `InvalidInputShape` exactly when the two
input arrays have mismatched feature counts, and succeeds when the feature
counts match. -/
theorem C6_loader_shape_validation {α : Type} (bkg sig : NpArray α) :
    (bkg.ncols ≠ sig.ncols → loadData bkg sig = .error .invalidInputShape) ∧
    (bkg.ncols = sig.ncols → ∃ out, loadData bkg sig = .ok out) := by
  constructor
  · intro hne
    simp [loadData, vstack, hne]
  · intro heq
    unfold loadData vstack
    rw [dif_pos heq]
    exact ⟨_, rfl⟩

/-- Witness for C6 at concrete mismatched and matched inputs. -/
theorem C6_loader_shape_validation_witness :
    ((NpArray.mk [[(1 : ℚ), 2]] 2 (by simp)).ncols ≠
        (NpArray.mk [[(3 : ℚ)]] 1 (by simp)).ncols →
      loadData (NpArray.mk [[(1 : ℚ), 2]] 2 (by simp))
          (NpArray.mk [[(3 : ℚ)]] 1 (by simp)) = .error .invalidInputShape) ∧
    ((NpArray.mk [[(1 : ℚ), 2]] 2 (by simp)).ncols =
        (NpArray.mk [[(3 : ℚ)]] 1 (by simp)).ncols →
      ∃ out, loadData (NpArray.mk [[(1 : ℚ), 2]] 2 (by simp))
          (NpArray.mk [[(3 : ℚ)]] 1 (by simp)) = .ok out) :=
  C6_loader_shape_validation _ _

/-- C7: the subsampling step fails with `InsufficientSamples` exactly when the
requested count `n` exceeds the number of rows; otherwise it succeeds and the
result has exactly `n` rows. -/
theorem C7_subsample_insufficient {α : Type} (perm : List Nat) (n : Nat)
    (rows : List α) (hperm : perm.Perm (List.range rows.length)) :
    (rows.length < n → sample perm n rows = .error .insufficientSamples) ∧
    (n ≤ rows.length → ∃ out, sample perm n rows = .ok out ∧ out.length = n) := by
  constructor
  · intro hlt
    rw [sample, if_neg (by omega)]
  · intro hle
    obtain ⟨out, hout, hlen, -⟩ := sample_eq_ok perm n rows hperm hle
    exact ⟨out, hout, hlen⟩

/-- Witness for C7 at a concrete row list and permutation: requesting 5 of 3
rows fails, requesting 2 of 3 succeeds with 2 rows. -/
theorem C7_subsample_insufficient_witness :
    (([2, 0, 1] : List Nat).Perm (List.range ([10, 20, 30] : List ℚ).length) ∧
      (([10, 20, 30] : List ℚ).length < 5 →
        sample [2, 0, 1] 5 ([10, 20, 30] : List ℚ) = .error .insufficientSamples)) ∧
    (([2, 0, 1] : List Nat).Perm (List.range ([10, 20, 30] : List ℚ).length) ∧
      (2 ≤ ([10, 20, 30] : List ℚ).length →
        ∃ out, sample [2, 0, 1] 2 ([10, 20, 30] : List ℚ) = .ok out ∧
          out.length = 2)) :=
  ⟨⟨by decide, (C7_subsample_insufficient [2, 0, 1] 5 _ (by decide)).1⟩,
   ⟨by decide, (C7_subsample_insufficient [2, 0, 1] 2 _ (by decide)).2⟩⟩

/-- C8: on inputs of 100 rows × 67 columns each and `max_samples = 200`, the
pipeline (load, standardize, subsample) produces a dataset of exactly 200
rows with 67 feature columns each, and re-running the subsampling with the
same seed-determined order selects the same rows. -/
theorem C8_subsample_shape_deterministic (bkg sig : NpArray ℝ) (perm : List Nat)
    (hb : bkg.rows.length = 100) (hs : sig.rows.length = 100)
    (hbc : bkg.ncols = 67) (hsc : sig.ncols = 67)
    (hperm : perm.Perm (List.range 200)) :
    ∃ X y out,
      loadData bkg sig = .ok (X, y) ∧
      sample perm 200 (fitTransform X).rows = .ok out ∧
      out.length = 200 ∧
      (∀ r ∈ out, r.length = 67) ∧
      (∀ perm₂, perm₂ = perm →
        sample perm₂ 200 (fitTransform X).rows =
          sample perm 200 (fitTransform X).rows) := by
  have hc : bkg.ncols = sig.ncols := by rw [hbc, hsc]
  obtain ⟨X, hX, hrows, hncols⟩ := loadData_eq_ok bkg sig hc
  have hXlen : X.rows.length = 200 := by
    rw [hrows, List.length_append, hb, hs]
  have hSlen : (fitTransform X).rows.length = 200 := by
    rw [fitTransform_rows_length, hXlen]
  obtain ⟨out, hout, holen, homem⟩ :=
    sample_eq_ok perm 200 (fitTransform X).rows (hSlen ▸ hperm) (by omega)
  refine ⟨X, _, out, hX, hout, holen, ?_, fun perm₂ h₂ => by rw [h₂]⟩
  intro r hr
  have hrS : r ∈ (fitTransform X).rows := homem r hr
  have := (fitTransform X).wf r hrS
  rw [this, fitTransform_ncols, hncols, hbc]

/-- Characterization of membership in `scoredFeatures`. -/
theorem mem_scoredFeatures_iff {scores : List ℚ} {x : ScoredFeature} :
    x ∈ scoredFeatures scores ↔
      x.idx < scores.length ∧ x = ⟨x.idx, scores.getD x.idx 0⟩ := by
  constructor
  · intro hx
    rcases List.mem_map.mp hx with ⟨i, hi, rfl⟩
    exact ⟨List.mem_range.mp hi, rfl⟩
  · rintro ⟨hlt, hx⟩
    exact hx ▸ List.mem_map.mpr ⟨x.idx, List.mem_range.mpr hlt, by rw [← hx]⟩

/-- The sorted ranking is a permutation of the scored features. -/
theorem sortValues_perm (scores : List ℚ) :
    (sortValues scores).Perm (scoredFeatures scores) :=
  List.perm_insertionSort miOrder (scoredFeatures scores)

/-- The ranking is sorted under the descending/stable order. -/
theorem sortValues_sorted (scores : List ℚ) :
    List.Sorted miOrder (sortValues scores) :=
  List.sorted_insertionSort miOrder (scoredFeatures scores)

/-- The ranking lists each feature index exactly once. -/
theorem sortValues_idx_nodup (scores : List ℚ) :
    ((sortValues scores).map ScoredFeature.idx).Nodup := by
  have hperm : ((sortValues scores).map ScoredFeature.idx).Perm
      ((scoredFeatures scores).map ScoredFeature.idx) :=
    (sortValues_perm scores).map ScoredFeature.idx
  have hf : (scoredFeatures scores).map ScoredFeature.idx =
      List.range scores.length := by
    rw [scoredFeatures, List.map_map]
    exact List.map_id _
  rw [hperm.nodup_iff, hf]
  exact List.nodup_range _

/-- The selection keeps `min 2 F` feature identifiers. -/
theorem topFeatures_length (scores : List ℚ) :
    (topFeatures scores).length = min 2 scores.length := by
  simp [topFeatures, sortValues, scoredFeatures]

/-- C4: the feature selector returns exactly the `K = 2` features with the
highest mutual-information scores, ordered by descending score, with ties
broken in favour of the feature earlier in the original order: the two
selected indices beat every unselected index either strictly or by the
stable tie-break. -/
theorem C4_top_features (scores : List ℚ) (h2 : 2 ≤ scores.length) :
    ∃ i j, topFeatures scores = [i, j] ∧
      i < scores.length ∧ j < scores.length ∧ i ≠ j ∧
      (scores.getD j 0 < scores.getD i 0 ∨
        (scores.getD i 0 = scores.getD j 0 ∧ i < j)) ∧
      ∀ k < scores.length, k ≠ i → k ≠ j →
        (scores.getD k 0 < scores.getD i 0 ∨
          (scores.getD k 0 = scores.getD i 0 ∧ i < k)) ∧
        (scores.getD k 0 < scores.getD j 0 ∨
          (scores.getD k 0 = scores.getD j 0 ∧ j < k)) := by
  obtain ⟨a, b, rest, hs⟩ : ∃ a b rest, sortValues scores = a :: b :: rest := by
    have hlen : (sortValues scores).length = scores.length := by
      simp [sortValues, scoredFeatures]
    match hmatch : sortValues scores with
    | [] => rw [hmatch] at hlen; simp at hlen; omega
    | [a] => rw [hmatch] at hlen; simp at hlen; omega
    | a :: b :: rest => exact ⟨a, b, rest, rfl⟩
  have hmem : ∀ x ∈ sortValues scores,
      x.idx < scores.length ∧ x = ⟨x.idx, scores.getD x.idx 0⟩ :=
    fun x hx => mem_scoredFeatures_iff.mp ((sortValues_perm scores).mem_iff.mp hx)
  have ha := hmem a (by rw [hs]; exact List.mem_cons_self _ _)
  have hb := hmem b (by rw [hs]; exact List.mem_cons_of_mem _ (List.mem_cons_self _ _))
  have hnodup := sortValues_idx_nodup scores
  rw [hs] at hnodup
  simp only [List.map_cons, List.nodup_cons, List.mem_cons, List.mem_map] at hnodup
  have hab_ne : a.idx ≠ b.idx := fun h => hnodup.1 (Or.inl h)
  have hsorted := sortValues_sorted scores
  rw [hs] at hsorted
  rw [List.sorted_cons] at hsorted
  obtain ⟨ha_all, hsorted⟩ := hsorted
  rw [List.sorted_cons] at hsorted
  obtain ⟨hb_all, -⟩ := hsorted
  have hab : miOrder a b := ha_all b (List.mem_cons_self _ _)
  have hscore : ∀ x : ScoredFeature,
      x = (⟨x.idx, scores.getD x.idx 0⟩ : ScoredFeature) →
      x.score = scores.getD x.idx 0 := by
    intro x hx
    conv => lhs; rw [hx]
  have hasc := hscore a ha.2
  have hbsc := hscore b hb.2
  refine ⟨a.idx, b.idx, ?_, ha.1, hb.1, hab_ne, ?_, ?_⟩
  · simp [topFeatures, hs]
  · rcases hab with h | ⟨h, h'⟩
    · left; rw [← hasc, ← hbsc]; exact h
    · right
      exact ⟨by rw [← hasc, ← hbsc]; exact h, lt_of_le_of_ne h' hab_ne⟩
  · intro k hk hka hkb
    have hkmem : (⟨k, scores.getD k 0⟩ : ScoredFeature) ∈ sortValues scores :=
      (sortValues_perm scores).mem_iff.mpr (mem_scoredFeatures_iff.mpr ⟨hk, rfl⟩)
    rw [hs] at hkmem
    have hka' : (⟨k, scores.getD k 0⟩ : ScoredFeature) ≠ a := by
      intro h
      exact hka (by rw [← h])
    have hkb' : (⟨k, scores.getD k 0⟩ : ScoredFeature) ≠ b := by
      intro h
      exact hkb (by rw [← h])
    have hkrest : (⟨k, scores.getD k 0⟩ : ScoredFeature) ∈ rest := by
      rcases List.mem_cons.mp hkmem with h | hkmem
      · exact absurd h hka'
      rcases List.mem_cons.mp hkmem with h | hkmem
      · exact absurd h hkb'
      · exact hkmem
    have hak : miOrder a ⟨k, scores.getD k 0⟩ :=
      ha_all _ (List.mem_cons_of_mem _ hkrest)
    have hbk : miOrder b ⟨k, scores.getD k 0⟩ := hb_all _ hkrest
    constructor
    · rcases hak with h | ⟨h, h'⟩
      · left; rw [← hasc]; exact h
      · right
        refine ⟨by rw [← hasc]; exact h.symm, lt_of_le_of_ne h' fun hh => hka hh.symm⟩
    · rcases hbk with h | ⟨h, h'⟩
      · left; rw [← hbsc]; exact h
      · right
        refine ⟨by rw [← hbsc]; exact h.symm, lt_of_le_of_ne h' fun hh => hkb hh.symm⟩

/-- Witness for C4 at concrete scores with a tie: features 1 and 2 share the
top score 5, so the selection is `[1, 2]`. -/
theorem C4_top_features_witness :
    2 ≤ ([3, 5, 5, 1] : List ℚ).length ∧
    ∃ i j, topFeatures [3, 5, 5, 1] = [i, j] ∧
      i < ([3, 5, 5, 1] : List ℚ).length ∧
      j < ([3, 5, 5, 1] : List ℚ).length ∧ i ≠ j ∧
      (([3, 5, 5, 1] : List ℚ).getD j 0 < ([3, 5, 5, 1] : List ℚ).getD i 0 ∨
        (([3, 5, 5, 1] : List ℚ).getD i 0 = ([3, 5, 5, 1] : List ℚ).getD j 0 ∧
          i < j)) ∧
      ∀ k < ([3, 5, 5, 1] : List ℚ).length, k ≠ i → k ≠ j →
        (([3, 5, 5, 1] : List ℚ).getD k 0 < ([3, 5, 5, 1] : List ℚ).getD i 0 ∨
          (([3, 5, 5, 1] : List ℚ).getD k 0 = ([3, 5, 5, 1] : List ℚ).getD i 0 ∧
            i < k)) ∧
        (([3, 5, 5, 1] : List ℚ).getD k 0 < ([3, 5, 5, 1] : List ℚ).getD j 0 ∨
          (([3, 5, 5, 1] : List ℚ).getD k 0 = ([3, 5, 5, 1] : List ℚ).getD j 0 ∧
            j < k)) :=
  ⟨by decide, C4_top_features [3, 5, 5, 1] (by decide)⟩

/-- C3: the feature-selection stage is deterministic: two runs of the stage
on the same feature matrix, labels and seed — hence, for the spec-modelled
deterministic estimator, with equal mutual-information score vectors —
produce the same scores, the same sorted ranking and an identical top-2
selection in the same order. -/
theorem C3_selection_deterministic
    (mi₁ mi₂ : List (List ℚ) → List ℚ → Nat → List ℚ)
    (X₁ X₂ : List (List ℚ)) (y₁ y₂ : List ℚ) (s₁ s₂ : Nat)
    (hX : X₁ = X₂) (hy : y₁ = y₂) (hs : s₁ = s₂)
    (hmi : mi₁ X₂ y₂ s₂ = mi₂ X₂ y₂ s₂) :
    mi₁ X₁ y₁ s₁ = mi₂ X₂ y₂ s₂ ∧
    sortValues (mi₁ X₁ y₁ s₁) = sortValues (mi₂ X₂ y₂ s₂) ∧
    featureSelection mi₁ X₁ y₁ s₁ = featureSelection mi₂ X₂ y₂ s₂ := by
  subst hX hy hs
  exact ⟨hmi, by rw [hmi], by unfold featureSelection topFeatures; rw [hmi]⟩

/-- Witness for C3 at a concrete estimator, dataset and seed. -/
theorem C3_selection_deterministic_witness :
    ([[(1 : ℚ), 2]] = [[(1 : ℚ), 2]]) ∧ ([(0 : ℚ)] = [(0 : ℚ)]) ∧
    ((42 : Nat) = 42) ∧
    ((fun (_ : List (List ℚ)) (_ : List ℚ) (_ : Nat) => [(7 : ℚ), 3]) [[(1 : ℚ), 2]] [(0 : ℚ)] 42 =
      (fun (_ : List (List ℚ)) (_ : List ℚ) (_ : Nat) => [(7 : ℚ), 3]) [[(1 : ℚ), 2]] [(0 : ℚ)] 42) ∧
    ((fun (_ : List (List ℚ)) (_ : List ℚ) (_ : Nat) => [(7 : ℚ), 3]) [[(1 : ℚ), 2]] [(0 : ℚ)] 42 =
      (fun (_ : List (List ℚ)) (_ : List ℚ) (_ : Nat) => [(7 : ℚ), 3]) [[(1 : ℚ), 2]] [(0 : ℚ)] 42) ∧
    sortValues ((fun (_ : List (List ℚ)) (_ : List ℚ) (_ : Nat) => [(7 : ℚ), 3]) [[(1 : ℚ), 2]] [(0 : ℚ)] 42) =
      sortValues ((fun (_ : List (List ℚ)) (_ : List ℚ) (_ : Nat) => [(7 : ℚ), 3]) [[(1 : ℚ), 2]] [(0 : ℚ)] 42) ∧
    featureSelection (fun _ _ _ => [(7 : ℚ), 3]) [[(1 : ℚ), 2]] [(0 : ℚ)] 42 =
      featureSelection (fun _ _ _ => [(7 : ℚ), 3]) [[(1 : ℚ), 2]] [(0 : ℚ)] 42 :=
  ⟨rfl, rfl, rfl, rfl,
    C3_selection_deterministic (fun _ _ _ => [(7 : ℚ), 3]) (fun _ _ _ => [(7 : ℚ), 3])
      [[(1 : ℚ), 2]] [[(1 : ℚ), 2]] [(0 : ℚ)] [(0 : ℚ)] 42 42 rfl rfl rfl rfl⟩

/-- C9: the kernel builder constructs the feature map with feature dimension
equal to the number of selected features (which is 2 whenever at least two
features are available), hence exactly one input parameter per selected
feature, with repetition count 2 and linear entanglement. -/
theorem C9_feature_map_config (scores : List ℚ) (h2 : 2 ≤ scores.length) :
    buildFeatureMap scores =
      ZZFeatureMap (topFeatures scores).length 2 .linear ∧
    (buildFeatureMap scores).featureDimension = 2 ∧
    numInputParams (buildFeatureMap scores) = (topFeatures scores).length ∧
    (buildFeatureMap scores).reps = 2 ∧
    (buildFeatureMap scores).entanglement = .linear := by
  refine ⟨rfl, ?_, rfl, rfl, rfl⟩
  show (topFeatures scores).length = 2
  rw [topFeatures_length]
  omega

/-- Witness for C9 at concrete scores. -/
theorem C9_feature_map_config_witness :
    2 ≤ ([1, 4, 2] : List ℚ).length ∧
    (buildFeatureMap [1, 4, 2] =
      ZZFeatureMap (topFeatures [1, 4, 2]).length 2 .linear ∧
    (buildFeatureMap [1, 4, 2]).featureDimension = 2 ∧
    numInputParams (buildFeatureMap [1, 4, 2]) = (topFeatures [1, 4, 2]).length ∧
    (buildFeatureMap [1, 4, 2]).reps = 2 ∧
    (buildFeatureMap [1, 4, 2]).entanglement = .linear) :=
  ⟨by decide, C9_feature_map_config [1, 4, 2] (by decide)⟩

/-- Taking a prefix distributes over zipping. -/
theorem zip_take_comm {α β : Type} : ∀ (n : Nat) (xs : List α) (ys : List β),
    (xs.zip ys).take n = (xs.take n).zip (ys.take n)
  | 0, _, _ => by simp
  | _ + 1, [], _ => by simp
  | _ + 1, _ :: _, [] => by simp
  | n + 1, x :: xs, y :: ys => by simp [zip_take_comm n xs ys]

/-- Dropping a prefix distributes over zipping. -/
theorem zip_drop_comm {α β : Type} : ∀ (n : Nat) (xs : List α) (ys : List β),
    (xs.zip ys).drop n = (xs.drop n).zip (ys.drop n)
  | 0, _, _ => by simp
  | _ + 1, [], _ => by simp
  | _ + 1, _ :: _, [] => by simp
  | n + 1, x :: xs, y :: ys => by simp [zip_drop_comm n xs ys]

/-- Selecting all indices in order returns the list itself. -/
theorem filterMap_index_range {α : Type} :
    ∀ xs : List α, (List.range xs.length).filterMap (fun i => xs[i]?) = xs := by
  intro xs
  induction xs with
  | nil => simp
  | cons a t ih =>
    rw [List.length_cons, List.range_succ_eq_map, List.filterMap_cons,
      List.filterMap_map]
    have hc : (fun i => (a :: t)[i]?) ∘ Nat.succ = fun i => t[i]? := by
      funext i
      simp
    rw [hc]
    simp [ih]

/-- Selecting rows along a permutation of all indices permutes the list. -/
theorem filterMap_index_perm {α : Type} (xs : List α) (perm : List Nat)
    (hperm : perm.Perm (List.range xs.length)) :
    (perm.filterMap fun i => xs[i]?).Perm xs := by
  have h1 : (perm.filterMap fun i => xs[i]?).Perm
      ((List.range xs.length).filterMap fun i => xs[i]?) :=
    hperm.filterMap _
  rw [filterMap_index_range xs] at h1
  exact h1

/-- Selecting along the same index list from two lists of equal length picks
matching positions: selection commutes with zipping. -/
theorem filterMap_index_zip {α β : Type} (X : List α) (y : List β)
    (hlen : X.length = y.length) :
    ∀ perm : List Nat, (∀ i ∈ perm, i < X.length) →
      (perm.filterMap fun i => (X.zip y)[i]?) =
        (perm.filterMap fun i => X[i]?).zip (perm.filterMap fun i => y[i]?) := by
  intro perm
  induction perm with
  | nil => simp
  | cons i t ih =>
    intro h
    have hiX : i < X.length := h i (by simp)
    have hiy : i < y.length := hlen ▸ hiX
    have hiz : i < (X.zip y).length := by
      rw [List.length_zip]
      omega
    rw [List.filterMap_cons, List.filterMap_cons, List.filterMap_cons,
      List.getElem?_eq_getElem hiX, List.getElem?_eq_getElem hiy,
      List.getElem?_eq_getElem hiz]
    simp only [List.getElem_zip, List.zip_cons_cons]
    rw [ih fun j hj => h j (by simp [hj])]

/-- C10: on 200 selected samples the train/test split with `test_size = 0.2`
puts 40 samples in the test set and 160 in the train set; together the two
sets are a permutation of the whole selected dataset (each sample occurs in
exactly one of them); splitting the feature matrix and the label vector
along the same shuffle keeps every sample's features and label paired (the
split of the zipped data is the zip of the splits); and the split is
determined by the seed's permutation alone. -/
theorem C10_train_test_split {α β : Type} (perm : List Nat)
    (X : List α) (y : List β)
    (hX : X.length = 200) (hy : y.length = 200)
    (hperm : perm.Perm (List.range 200)) :
    (trainTestSplit perm 200 (X.zip y)).1.length = 160 ∧
    (trainTestSplit perm 200 (X.zip y)).2.length = 40 ∧
    ((trainTestSplit perm 200 (X.zip y)).1 ++
      (trainTestSplit perm 200 (X.zip y)).2).Perm (X.zip y) ∧
    (trainTestSplit perm 200 (X.zip y)).1 =
      ((trainTestSplit perm 200 X).1.zip (trainTestSplit perm 200 y).1) ∧
    (trainTestSplit perm 200 (X.zip y)).2 =
      ((trainTestSplit perm 200 X).2.zip (trainTestSplit perm 200 y).2) ∧
    (∀ perm₂, perm₂ = perm →
      trainTestSplit perm₂ 200 (X.zip y) = trainTestSplit perm 200 (X.zip y)) := by
  have hzlen : (X.zip y).length = 200 := by
    rw [List.length_zip, hX, hy]
    omega
  have hn : nTest 200 = 40 := by
    rw [nTest]
    norm_num
    exact rfl
  have hshuffle : (perm.filterMap fun i => (X.zip y)[i]?).Perm (X.zip y) :=
    filterMap_index_perm _ perm (hzlen ▸ hperm)
  have hslen : (perm.filterMap fun i => (X.zip y)[i]?).length = 200 :=
    hshuffle.length_eq.trans hzlen
  have hzip : (perm.filterMap fun i => (X.zip y)[i]?) =
      (perm.filterMap fun i => X[i]?).zip (perm.filterMap fun i => y[i]?) := by
    refine filterMap_index_zip X y (by omega) perm fun i hi => ?_
    have := hperm.mem_iff.mp hi
    rw [List.mem_range] at this
    omega
  refine ⟨?_, ?_, ?_, ?_, ?_, fun perm₂ h₂ => by rw [h₂]⟩
  · show ((perm.filterMap fun i => (X.zip y)[i]?).drop (nTest 200)).length = 160
    rw [List.length_drop, hslen, hn]
  · show ((perm.filterMap fun i => (X.zip y)[i]?).take (nTest 200)).length = 40
    rw [List.length_take, hslen, hn]
    omega
  · show (((perm.filterMap fun i => (X.zip y)[i]?).drop (nTest 200)) ++
      ((perm.filterMap fun i => (X.zip y)[i]?).take (nTest 200))).Perm (X.zip y)
    exact (List.perm_append_comm.trans
      (by rw [List.take_append_drop])).trans hshuffle
  · show (perm.filterMap fun i => (X.zip y)[i]?).drop (nTest 200) =
      ((perm.filterMap fun i => X[i]?).drop (nTest 200)).zip
        ((perm.filterMap fun i => y[i]?).drop (nTest 200))
    rw [hzip, zip_drop_comm]
  · show (perm.filterMap fun i => (X.zip y)[i]?).take (nTest 200) =
      ((perm.filterMap fun i => X[i]?).take (nTest 200)).zip
        ((perm.filterMap fun i => y[i]?).take (nTest 200))
    rw [hzip, zip_take_comm]

/-- Witness for C10 at concrete 200-sample lists and the identity shuffle. -/
theorem C10_train_test_split_witness :
    (List.replicate 200 [(0 : ℚ)]).length = 200 ∧
    (List.replicate 200 (1 : ℚ)).length = 200 ∧
    (List.range 200).Perm (List.range 200) ∧
    ((trainTestSplit (List.range 200) 200
        ((List.replicate 200 [(0 : ℚ)]).zip (List.replicate 200 (1 : ℚ)))).1.length = 160 ∧
     (trainTestSplit (List.range 200) 200
        ((List.replicate 200 [(0 : ℚ)]).zip (List.replicate 200 (1 : ℚ)))).2.length = 40 ∧
     ((trainTestSplit (List.range 200) 200
        ((List.replicate 200 [(0 : ℚ)]).zip (List.replicate 200 (1 : ℚ)))).1 ++
       (trainTestSplit (List.range 200) 200
        ((List.replicate 200 [(0 : ℚ)]).zip (List.replicate 200 (1 : ℚ)))).2).Perm
        ((List.replicate 200 [(0 : ℚ)]).zip (List.replicate 200 (1 : ℚ))) ∧
     (trainTestSplit (List.range 200) 200
        ((List.replicate 200 [(0 : ℚ)]).zip (List.replicate 200 (1 : ℚ)))).1 =
       ((trainTestSplit (List.range 200) 200 (List.replicate 200 [(0 : ℚ)])).1.zip
         (trainTestSplit (List.range 200) 200 (List.replicate 200 (1 : ℚ))).1) ∧
     (trainTestSplit (List.range 200) 200
        ((List.replicate 200 [(0 : ℚ)]).zip (List.replicate 200 (1 : ℚ)))).2 =
       ((trainTestSplit (List.range 200) 200 (List.replicate 200 [(0 : ℚ)])).2.zip
         (trainTestSplit (List.range 200) 200 (List.replicate 200 (1 : ℚ))).2) ∧
     (∀ perm₂, perm₂ = List.range 200 →
       trainTestSplit perm₂ 200
           ((List.replicate 200 [(0 : ℚ)]).zip (List.replicate 200 (1 : ℚ))) =
         trainTestSplit (List.range 200) 200
           ((List.replicate 200 [(0 : ℚ)]).zip (List.replicate 200 (1 : ℚ))))) :=
  ⟨List.length_replicate 200 _, List.length_replicate 200 _, List.Perm.refl _,
   C10_train_test_split (List.range 200) (List.replicate 200 [(0 : ℚ)])
     (List.replicate 200 (1 : ℚ)) (List.length_replicate 200 _)
     (List.length_replicate 200 _) (List.Perm.refl _)⟩

/-- The kernel value is symmetric in its two parameter vectors. -/
theorem fidelityKernel_symm {P E : Type} [NormedAddCommGroup E]
    [InnerProductSpace ℂ E] (phi : P → E) (x y : P) :
    fidelityKernel phi x y = fidelityKernel phi y x := by
  unfold fidelityKernel
  rw [← inner_conj_symm (phi y) (phi x), RCLike.norm_conj]

/-- An in-range entry of an evaluated kernel matrix is the kernel value of
the corresponding parameter vectors. -/
theorem entry_evaluate {P E : Type} [NormedAddCommGroup E]
    [InnerProductSpace ℂ E] (phi : P → E) (xs ys : List P) {i j : Nat}
    (hi : i < xs.length) (hj : j < ys.length) :
    entry (evaluate phi xs ys) i j = fidelityKernel phi xs[i] ys[j] := by
  unfold entry evaluate
  rw [List.getD_eq_getElem?_getD
      (List.map (fun x => List.map (fun y => fidelityKernel phi x y) ys) xs) i [],
    List.getElem?_map, List.getElem?_eq_getElem hi, Option.map_some',
    Option.getD_some, List.getD_eq_getElem?_getD _ j 0, List.getElem?_map,
    List.getElem?_eq_getElem hj, Option.map_some', Option.getD_some]

/-- An entry whose row index is out of range is `0`. -/
theorem entry_evaluate_row_oob {P E : Type} [NormedAddCommGroup E]
    [InnerProductSpace ℂ E] (phi : P → E) (xs ys : List P) {i : Nat}
    (j : Nat) (hi : xs.length ≤ i) :
    entry (evaluate phi xs ys) i j = 0 := by
  unfold entry evaluate
  rw [List.getD_eq_default
      (List.map (fun x => List.map (fun y => fidelityKernel phi x y) ys) xs) []
      (by simpa using hi)]
  simp

/-- An entry whose column index is out of range is `0`. -/
theorem entry_evaluate_col_oob {P E : Type} [NormedAddCommGroup E]
    [InnerProductSpace ℂ E] (phi : P → E) (xs ys : List P) (i : Nat)
    {j : Nat} (hj : ys.length ≤ j) :
    entry (evaluate phi xs ys) i j = 0 := by
  rcases Nat.lt_or_ge i xs.length with hi | hi
  · unfold entry evaluate
    rw [List.getD_eq_getElem?_getD
        (List.map (fun x => List.map (fun y => fidelityKernel phi x y) ys) xs) i [],
      List.getElem?_map, List.getElem?_eq_getElem hi, Option.map_some',
      Option.getD_some, List.getD_eq_default _ 0 (by simpa using hj)]
  · exact entry_evaluate_row_oob phi xs ys j hi

/-- C5: every entry of a kernel matrix produced by `evaluate` lies in
`[0, 1]` (for states of unit norm), and the train-vs-train kernel matrix is
symmetric: `K[i][j] = K[j][i]` for all indices. -/
theorem C5_kernel_bounds_symmetric {P E : Type} [NormedAddCommGroup E]
    [InnerProductSpace ℂ E] (phi : P → E) (hunit : ∀ x, ‖phi x‖ = 1)
    (xs ys : List P) :
    (∀ row ∈ evaluate phi xs ys, ∀ v ∈ row, 0 ≤ v ∧ v ≤ 1) ∧
    (∀ i j, entry (evaluate phi xs xs) i j = entry (evaluate phi xs xs) j i) := by
  constructor
  · intro row hrow v hv
    rcases List.mem_map.mp hrow with ⟨x, -, rfl⟩
    rcases List.mem_map.mp hv with ⟨y, -, rfl⟩
    constructor
    · exact sq_nonneg _
    · have hle : ‖(inner (phi x) (phi y) : ℂ)‖ ≤ 1 := by
        have := norm_inner_le_norm (𝕜 := ℂ) (phi x) (phi y)
        rwa [hunit x, hunit y, mul_one] at this
      exact pow_le_one₀ (norm_nonneg _) hle
  · intro i j
    rcases Nat.lt_or_ge i xs.length with hi | hi <;>
      rcases Nat.lt_or_ge j xs.length with hj | hj
    · rw [entry_evaluate phi xs xs hi hj, entry_evaluate phi xs xs hj hi]
      exact fidelityKernel_symm phi _ _
    · rw [entry_evaluate_col_oob phi xs xs i hj,
        entry_evaluate_row_oob phi xs xs i hj]
    · rw [entry_evaluate_row_oob phi xs xs j hi,
        entry_evaluate_col_oob phi xs xs j hi]
    · rw [entry_evaluate_row_oob phi xs xs j hi,
        entry_evaluate_row_oob phi xs xs i hj]

/-- Witness for C5 at a concrete one-qubit state family. -/
theorem C5_kernel_bounds_symmetric_witness :
    (∀ x : Unit,
      ‖(fun _ : Unit => EuclideanSpace.single (0 : Fin 1) (1 : ℂ)) x‖ = 1) ∧
    ((∀ row ∈ evaluate (fun _ : Unit => EuclideanSpace.single (0 : Fin 1) (1 : ℂ))
        [(), ()] [()], ∀ v ∈ row, 0 ≤ v ∧ v ≤ 1) ∧
     (∀ i j, entry (evaluate (fun _ : Unit => EuclideanSpace.single (0 : Fin 1) (1 : ℂ))
          [(), ()] [(), ()]) i j =
        entry (evaluate (fun _ : Unit => EuclideanSpace.single (0 : Fin 1) (1 : ℂ))
          [(), ()] [(), ()]) j i)) :=
  ⟨fun _ => by rw [EuclideanSpace.norm_single]; simp,
   C5_kernel_bounds_symmetric _ (fun _ => by rw [EuclideanSpace.norm_single]; simp)
     [(), ()] [()]⟩

/-- Summing `x - c` over a list subtracts `c` once per element. -/
theorem sum_map_sub (l : List ℝ) (c : ℝ) :
    (l.map fun x => x - c).sum = l.sum - l.length * c := by
  induction l with
  | nil => simp
  | cons a t ih =>
    simp only [List.map_cons, List.sum_cons, List.length_cons, ih]
    push_cast
    ring

/-- Centering a nonempty list at its mean gives total deviation zero. -/
theorem sum_map_sub_mean (l : List ℝ) (hne : l ≠ []) :
    (l.map fun x => x - mean l).sum = 0 := by
  have hlen : (l.length : ℝ) ≠ 0 := by
    have := List.length_pos.mpr hne
    positivity
  rw [sum_map_sub, mean]
  field_simp

/-- Dividing each mapped element by a common scale divides the sum. -/
theorem sum_map_div (l : List ℝ) (f : ℝ → ℝ) (s : ℝ) :
    (l.map fun x => f x / s).sum = (l.map f).sum / s := by
  induction l with
  | nil => simp
  | cons a t ih =>
    simp only [List.map_cons, List.sum_cons, ih]
    rw [add_div]

/-- The population variance is nonnegative. -/
theorem popVar_nonneg (l : List ℝ) : 0 ≤ popVar l := by
  unfold popVar
  apply div_nonneg
  · apply List.sum_nonneg
    intro x hx
    rcases List.mem_map.mp hx with ⟨a, -, rfl⟩
    positivity
  · positivity

/-- A standardized nonempty column has mean exactly zero. -/
theorem mean_standardized (l : List ℝ) (hne : l ≠ []) :
    mean (l.map fun x => (x - mean l) / scaleOf l) = 0 := by
  rw [mean, sum_map_div l (fun x => x - mean l) (scaleOf l),
    sum_map_sub_mean l hne, zero_div, zero_div]

/-- A standardized nonempty, non-constant column has population variance
exactly one. -/
theorem popVar_standardized (l : List ℝ) (hne : l ≠ []) (hv : popVar l ≠ 0) :
    popVar (l.map fun x => (x - mean l) / scaleOf l) = 1 := by
  have hnn : 0 ≤ popVar l := popVar_nonneg l
  have hsqrt : Real.sqrt (popVar l) ≠ 0 := by
    rw [Real.sqrt_ne_zero' ]
    exact lt_of_le_of_ne hnn (Ne.symm hv)
  have hscale : scaleOf l = Real.sqrt (popVar l) := by
    rw [scaleOf, if_neg hsqrt]
  have hs2 : scaleOf l ^ 2 = popVar l := by
    rw [hscale]
    exact Real.sq_sqrt hnn
  have hsne : scaleOf l ≠ 0 := by
    rw [hscale]
    exact hsqrt
  have hmz := mean_standardized l hne
  rw [popVar, hmz]
  simp only [sub_zero]
  rw [List.map_map]
  have hcomp : ((fun y => y ^ 2) ∘ fun x => (x - mean l) / scaleOf l) =
      fun x => (x - mean l) ^ 2 / scaleOf l ^ 2 := by
    funext x
    simp [div_pow]
  rw [hcomp, sum_map_div l (fun x => (x - mean l) ^ 2) (scaleOf l ^ 2),
    List.length_map]
  rw [div_div, mul_comm, ← div_div, ← popVar, hs2, div_self hv]

/-- For an in-range column index, the standardized array's column is the
standardization of the original column. -/
theorem column_fitTransform (a : NpArray ℝ) {j : Nat} (hj : j < a.ncols) :
    column (fitTransform a).rows j =
      (column a.rows j).map
        fun x => (x - mean (column a.rows j)) / scaleOf (column a.rows j) := by
  unfold fitTransform column
  rw [List.map_map, List.map_map]
  apply List.map_congr_left
  intro r hr
  simp only [Function.comp]
  rw [List.getD_eq_getElem?_getD, List.getElem?_map,
    List.getElem?_eq_getElem (by simpa using hj)]
  simp [List.getElem_range]

/-- C2 (amended): the full standardized dataset — before the subsampling
step — has, in every feature column, mean exactly `0`, and population
variance exactly `1` whenever the original column is not constant. -/
theorem C2_standardized_mean_var (a : NpArray ℝ) (hne : a.rows ≠ [])
    (j : Nat) (hj : j < a.ncols) :
    mean (column (fitTransform a).rows j) = 0 ∧
    (popVar (column a.rows j) ≠ 0 →
      popVar (column (fitTransform a).rows j) = 1) := by
  have hcne : column a.rows j ≠ [] := by
    intro h
    apply hne
    unfold column at h
    exact List.map_eq_nil_iff.mp h
  rw [column_fitTransform a hj]
  exact ⟨mean_standardized _ hcne, fun hv => popVar_standardized _ hcne hv⟩

/-- Witness for the amended C2 at the concrete three-row dataset. -/
theorem C2_standardized_mean_var_witness :
    (NpArray.mk [[(0 : ℝ)], [1], [2]] 1 (by simp)).rows ≠ [] ∧
    0 < (NpArray.mk [[(0 : ℝ)], [1], [2]] 1 (by simp)).ncols ∧
    (mean (column (fitTransform (NpArray.mk [[(0 : ℝ)], [1], [2]] 1 (by simp))).rows 0) = 0 ∧
     (popVar (column (NpArray.mk [[(0 : ℝ)], [1], [2]] 1 (by simp)).rows 0) ≠ 0 →
       popVar (column (fitTransform (NpArray.mk [[(0 : ℝ)], [1], [2]] 1 (by simp))).rows 0) = 1)) :=
  ⟨by simp, by norm_num,
   C2_standardized_mean_var (NpArray.mk [[(0 : ℝ)], [1], [2]] 1 (by simp))
     (by simp) 0 (by norm_num)⟩

/-- Loading the concrete example succeeds and yields `exAll`. -/
theorem ex_load : loadData exBkg exSig = .ok (exAll, hstackLabels 2 1) := by
  unfold loadData vstack
  rw [dif_pos (show exBkg.ncols = exSig.ncols from rfl)]
  rfl

/-- The single column of the concrete example. -/
theorem ex_col : column exAll.rows 0 = [0, 1, 2] := rfl

/-- Mean of the concrete column. -/
theorem ex_mean : mean [(0 : ℝ), 1, 2] = 1 := by
  rw [mean]
  norm_num

/-- Population variance of the concrete column. -/
theorem ex_var : popVar [(0 : ℝ), 1, 2] = 2 / 3 := by
  rw [popVar, ex_mean]
  norm_num

/-- Scale of the concrete column. -/
theorem ex_scale : scaleOf [(0 : ℝ), 1, 2] = Real.sqrt (2 / 3) := by
  rw [scaleOf, ex_var, if_neg]
  exact Real.sqrt_ne_zero'.mpr (by norm_num)

/-- The standardized rows of the concrete example. -/
theorem ex_rows : (fitTransform exAll).rows =
    [[-(1 / Real.sqrt (2 / 3))], [0], [1 / Real.sqrt (2 / 3)]] := by
  have hstep : (fitTransform exAll).rows =
      exAll.rows.map fun r => (List.range exAll.ncols).map
        fun j => (r.getD j 0 - mean (column exAll.rows j)) /
          scaleOf (column exAll.rows j) := rfl
  rw [hstep, show exAll.ncols = 1 from rfl,
    show List.range 1 = [0] from rfl,
    show exAll.rows = [[0], [1], [2]] from rfl]
  simp only [List.map_cons, List.map_nil, List.getD_cons_zero]
  rw [show column [[(0 : ℝ)], [1], [2]] 0 = [0, 1, 2] from rfl, ex_mean, ex_scale,
    show ((0 : ℝ) - 1) / Real.sqrt (2 / 3) = -(1 / Real.sqrt (2 / 3)) by ring,
    show ((1 : ℝ) - 1) / Real.sqrt (2 / 3) = 0 by rw [sub_self, zero_div],
    show ((2 : ℝ) - 1) / Real.sqrt (2 / 3) = 1 / Real.sqrt (2 / 3) by
      norm_num]

/-- Mean of a two-element list. -/
theorem mean_pair (x y : ℝ) : mean [x, y] = (x + y) / 2 := by
  rw [mean]
  norm_num

/-- Population variance of a two-element list. -/
theorem popVar_pair (x y : ℝ) :
    popVar [x, y] = ((x - (x + y) / 2) ^ 2 + (y - (x + y) / 2) ^ 2) / 2 := by
  rw [popVar, mean_pair]
  norm_num

/-- A two-element column with mean `0` and variance `1` satisfies the two
standard equations. -/
theorem pair_standard_eqns (x y : ℝ)
    (h : mean [x, y] = 0 ∧ popVar [x, y] = 1) :
    x + y = 0 ∧ x ^ 2 + y ^ 2 = 2 := by
  obtain ⟨hm, hv⟩ := h
  rw [mean_pair] at hm
  rw [popVar_pair] at hv
  have hxy : x + y = 0 := by linarith
  refine ⟨hxy, ?_⟩
  rw [hxy] at hv
  norm_num at hv
  linarith

/-- C2 (counterexample): on the three-row dataset assembled from `exBkg`
and `exSig` with `max_samples = 2`, no seed-determined subsampling of the
standardized data yields a processed subset whose feature column has mean
`0` and variance `1`: the claim fails however the seed's permutation falls. -/
theorem C2_counterexample :
    ¬ ∃ (X : NpArray ℝ) (y : List ℚ) (perm : List Nat) (out : List (List ℝ)),
        loadData exBkg exSig = .ok (X, y) ∧
        perm.Perm (List.range X.rows.length) ∧
        sample perm 2 (fitTransform X).rows = .ok out ∧
        ∀ j < (fitTransform X).ncols,
          mean (column out j) = 0 ∧ popVar (column out j) = 1 := by
  rintro ⟨X, y, perm, out, hload, hperm, hsample, hP⟩
  rw [ex_load] at hload
  simp only [Except.ok.injEq, Prod.mk.injEq] at hload
  obtain ⟨hX, -⟩ := hload
  subst hX
  have hs0 : (0 : ℝ) < Real.sqrt (2 / 3) := Real.sqrt_pos.mpr (by norm_num)
  have hsne : Real.sqrt (2 / 3) ≠ 0 := ne_of_gt hs0
  have hs2 : Real.sqrt (2 / 3) ^ 2 = 2 / 3 := Real.sq_sqrt (by norm_num)
  rw [ex_rows] at hsample
  have hlen : perm.length = 3 := by simpa [exAll] using hperm.length_eq
  obtain ⟨a, b, c, rfl⟩ : ∃ a b c, perm = [a, b, c] := by
    match perm, hlen with
    | [a, b, c], _ => exact ⟨a, b, c, rfl⟩
  have ha3 : a < 3 := by
    simpa [exAll] using hperm.mem_iff.mp (show a ∈ [a, b, c] by simp)
  have hb3 : b < 3 := by
    simpa [exAll] using hperm.mem_iff.mp (show b ∈ [a, b, c] by simp)
  have hnd : ([a, b, c] : List Nat).Nodup :=
    hperm.nodup_iff.mpr (List.nodup_range _)
  have hab : a ≠ b := by
    simp only [List.nodup_cons, List.mem_cons] at hnd
    exact fun h => hnd.1 (Or.inl h)
  rw [sample] at hsample
  rw [if_pos (by norm_num)] at hsample
  simp only [List.take_succ_cons, List.take_zero] at hsample
  have hP0 := hP 0 Nat.zero_lt_one
  interval_cases a <;> interval_cases b <;>
    first
    | exact absurd rfl hab
    | (simp only [List.filterMap_cons, List.getElem?_cons_zero,
        List.getElem?_cons_succ, List.filterMap_nil, Except.ok.injEq] at hsample
       subst hsample
       simp only [column, List.map_cons, List.map_nil, List.getD_cons_zero] at hP0
       obtain ⟨e1, e2⟩ := pair_standard_eqns _ _ hP0
       first
       | exact one_div_ne_zero hsne (by linarith)
       | (simp only [neg_sq] at e2
          have hsq : (1 / Real.sqrt (2 / 3)) ^ 2 = 1 := by linarith
          rw [div_pow, one_pow, hs2] at hsq
          norm_num at hsq))

/-- Witness for C8 at the concrete scenario: two constant 100 × 67 arrays and
the identity row order. -/
theorem C8_subsample_shape_deterministic_witness :
    (constArray 100 67 0).rows.length = 100 ∧
    (constArray 100 67 1).rows.length = 100 ∧
    (constArray 100 67 0).ncols = 67 ∧
    (constArray 100 67 1).ncols = 67 ∧
    (List.range 200).Perm (List.range 200) ∧
    ∃ X y out,
      loadData (constArray 100 67 0) (constArray 100 67 1) = .ok (X, y) ∧
      sample (List.range 200) 200 (fitTransform X).rows = .ok out ∧
      out.length = 200 ∧
      (∀ r ∈ out, r.length = 67) ∧
      (∀ perm₂, perm₂ = List.range 200 →
        sample perm₂ 200 (fitTransform X).rows =
          sample (List.range 200) 200 (fitTransform X).rows) :=
  ⟨by simp [constArray], by simp [constArray], rfl, rfl, List.Perm.refl _,
   C8_subsample_shape_deterministic _ _ _ (by simp [constArray])
     (by simp [constArray]) rfl rfl (List.Perm.refl _)⟩

end Kernel4HEP
